import Mathlib

/-!
Verification development for the City-Walker route planner.

The frontend (Next.js) sources are embedded directly from the repository;
the backend Route Optimization Engine (Python, not present in the sources)
is modelled from the specification, as indicated on each definition.
-/

/-! ## Frontend selection state (src/frontend-next page component)

The page keeps two react sets, `acceptedPois` and `rejectedPois`, mutated
only through `handleAccept` and `handleReject`.  `maxPois` is
`Infinity` for multi-day trips and a fixed constant otherwise; we model it
as `Option Nat` with `none` standing for `Infinity`. -/

structure SelState where
  accepted : Finset String
  rejected : Finset String

/-- JS test `prev.size >= maxPois`; `none` models `Infinity`, for which the
comparison is always false. -/
def capReached (cap : Option Nat) (n : Nat) : Bool :=
  match cap with
  | none => false
  | some m => decide (m ≤ n)

/-- Embeds `handleAccept`: the accepted set gains the id unless the cap
guard fires, and the rejected set always drops the id. -/
def handleAccept (cap : Option Nat) (s : SelState) (pid : String) : SelState :=
  ⟨if capReached cap s.accepted.card then s.accepted else insert pid s.accepted,
   s.rejected.erase pid⟩

/-- Embeds `handleReject`: the id joins the rejected set and leaves the
accepted set. -/
def handleReject (s : SelState) (pid : String) : SelState :=
  ⟨s.accepted.erase pid, insert pid s.rejected⟩

inductive SelOp
  | accept (pid : String)
  | reject (pid : String)

def applySelOp (cap : Option Nat) (s : SelState) : SelOp → SelState
  | .accept pid => handleAccept cap s pid
  | .reject pid => handleReject s pid

/-- Run a sequence of accept/reject operations from the initial empty state. -/
def runSel (cap : Option Nat) (ops : List SelOp) : SelState :=
  ops.foldl (applySelOp cap) ⟨∅, ∅⟩

/-! ## Frontend geocode POST fallback (src/frontend-next/src/app/api/geocode/route.ts) -/

structure GeoPlace where
  name : String
  pid : Option String
deriving DecidableEq

/-- Parsed JSON body of a single-geocode response. -/
structure GeoResp where
  success : Bool
  lat : ℚ
  lng : ℚ
  display : String
deriving DecidableEq

structure GeocodedPlace where
  name : String
  pid : Option String
  lat : ℚ
  lng : ℚ
  found : Bool
  address : Option String
deriving DecidableEq

/-- One iteration of the per-place fallback loop.  `none` models a non-ok
response or a thrown fetch error; the `success && lat && lng` test uses JS
truthiness, under which a latitude or longitude of exactly 0 is falsy. -/
def singleResult (resp : Option GeoResp) (pl : GeoPlace) : GeocodedPlace :=
  match resp with
  | some r =>
    if r.success ∧ r.lat ≠ 0 ∧ r.lng ≠ 0 then
      ⟨pl.name, pl.pid, r.lat, r.lng, true, some r.display⟩
    else ⟨pl.name, pl.pid, 0, 0, false, none⟩
  | none => ⟨pl.name, pl.pid, 0, 0, false, none⟩

/-- The `for (const place of places)` fallback loop; `oracle i` is the
outcome of the individual lookup for the i-th place. -/
def fallbackGeocode (oracle : Nat → Option GeoResp) : Nat → List GeoPlace → List GeocodedPlace
  | _, [] => []
  | i, pl :: rest => singleResult (oracle i) pl :: fallbackGeocode oracle (i + 1) rest

/-- The POST handler after a successful body parse: a non-ok batch response
(`batchResp = none`) falls back to per-place lookups. -/
def postGeocode (batchResp : Option (List GeocodedPlace)) (oracle : Nat → Option GeoResp)
    (places : List GeoPlace) : List GeocodedPlace :=
  match batchResp with
  | some rs => rs
  | none => fallbackGeocode oracle 0 places

/-! ## Frontend polyline simplification (src/frontend-next/src/components/Map.tsx)

`simplifyPolyline` is Ramer-Douglas-Peucker over `[lat, lng]` pairs.  The
JS float perpendicular distance is `num / sqrt(den)` with the numerator and
denominator below; within one call the denominator is a fixed nonnegative
value, so the float comparisons translate exactly: the running-maximum
test `dist > maxDist` is equivalent to comparing numerators, and the final
`maxDist > tolerance` test is equivalent to `tol < 0 ∨ tol ^ 2 * den < num ^ 2`
for the nonzero-denominator case.  When the denominator is zero every
distance is NaN in JS (the numerator is identically zero), no comparison
fires, and the final test compares the never-updated `maxDist = 0` against
the tolerance.  Recursion is modelled with explicit fuel, `none` marking a
run that exceeds its fuel (the JS function recurses without bound there). -/

def perpNum (s e p : ℚ × ℚ) : ℚ :=
  |(e.2 - s.2) * (s.1 - p.1) - (s.2 - p.2) * (e.1 - s.1)|

def lineDen (s e : ℚ × ℚ) : ℚ := (e.2 - s.2) ^ 2 + (e.1 - s.1) ^ 2

def scanStep (s e : ℚ × ℚ) (pts : List (ℚ × ℚ)) (acc : ℚ × Nat) (i : Nat) : ℚ × Nat :=
  if acc.1 < perpNum s e (pts.getD i (0, 0)) then (perpNum s e (pts.getD i (0, 0)), i) else acc

/-- The `for (let i = 1; i < points.length - 1; i++)` scan for the point of
maximum perpendicular distance, tracking the numerator and the index. -/
def scanMax (s e : ℚ × ℚ) (pts : List (ℚ × ℚ)) : ℚ × Nat :=
  (List.range' 1 (pts.length - 2)).foldl (scanStep s e pts) (0, 0)

/-- The `maxDist > tolerance` decision, in exact arithmetic. -/
def rdpRecurse (tol : ℚ) (pts : List (ℚ × ℚ)) : Bool :=
  if lineDen (pts.headD (0, 0)) (pts.getLastD (0, 0)) = 0 then decide (tol < 0)
  else decide (tol < 0 ∨ (0 ≤ tol ∧
    tol ^ 2 * lineDen (pts.headD (0, 0)) (pts.getLastD (0, 0)) <
      (scanMax (pts.headD (0, 0)) (pts.getLastD (0, 0)) pts).1 ^ 2))

def rdpGo : Nat → ℚ → List (ℚ × ℚ) → Option (List (ℚ × ℚ))
  | 0, _, _ => none
  | fuel + 1, tol, pts =>
    if pts.length ≤ 2 then some pts
    else if rdpRecurse tol pts then
      match rdpGo fuel tol
              (pts.take ((scanMax (pts.headD (0, 0)) (pts.getLastD (0, 0)) pts).2 + 1)),
            rdpGo fuel tol
              (pts.drop (scanMax (pts.headD (0, 0)) (pts.getLastD (0, 0)) pts).2) with
      | some left, some right => some (left.dropLast ++ right)
      | _, _ => none
    else some [pts.headD (0, 0), pts.getLastD (0, 0)]

/-- The source function, run with enough fuel for any terminating execution
(the recursion depth of a terminating run is bounded by the list length). -/
def simplifyPolyline (tol : ℚ) (pts : List (ℚ × ℚ)) : Option (List (ℚ × ℚ)) :=
  rdpGo (pts.length + 1) tol pts

/-! ## Frontend route-generation guard (src/frontend-next page component) -/

/-- Embeds the guard of `handleGenerateRoute`: with an empty selection the
frontend sets an error and returns without calling the backend (`none`);
otherwise it submits exactly the accepted POIs. -/
def handleGenerateRoute (discovered : List String) (accepted : Finset String) :
    Option (List String) :=
  if accepted.card = 0 then none
  else some (discovered.filter (fun p => decide (p ∈ accepted)))

/-! ## Route Optimization Engine

Modelled from the spec: the Python backend that hosts the Route
Optimization Engine (distance-matrix construction, nearest-neighbor tour
construction, 2-opt improvement, day partitioning, itinerary assembly) is
not among the available sources; every definition below follows sections
3-4 and 6-7 of the specification.  POI identifiers are naturals, distances
are exact rationals, the Travel Metric Gateway is a function returning
`none` on `ProviderUnavailable`/`ProviderTimeout`, and the geodesic
fallback is a matrix parameter (its numeric haversine form is modelled
separately over the reals further below).  The caller deadline is a
real-time concern and is not modelled; the engine never reports
`deadlineExceeded` here. -/

/-- Modelled from the spec: a point of interest (section 3). -/
structure POI where
  pid : Nat
  lat : ℚ
  lng : ℚ
  visitMinutes : ℚ
  category : String
deriving DecidableEq

/-- A distance matrix as a function on POI identifiers. -/
abbrev Mat := Nat → Nat → ℚ

/-- Modelled from the spec (4.1): a matrix entry is zero on the diagonal,
the Gateway value when available, and the geodesic fallback otherwise. -/
def buildEntry (gw : Nat → Nat → Option ℚ) (fb : Mat) (i j : Nat) : ℚ :=
  if i = j then 0 else
    match gw i j with
    | some v => v
    | none => fb i j

/-- All ordered pairs of entries taken at distinct positions of the list. -/
def idPairs : List Nat → List (Nat × Nat)
  | [] => []
  | i :: rest => (rest.map (fun j => (i, j))) ++ (rest.map (fun j => (j, i))) ++ idPairs rest

/-- Modelled from the spec (4.1): a matrix is degraded when any pair used
the fallback. -/
def matrixDegraded (gw : Nat → Nat → Option ℚ) (ids : List Nat) : Bool :=
  (idPairs ids).any (fun p => (gw p.1 p.2).isNone)

/-- Select the element with the least identifier, returning it and the
remaining elements. -/
def selectMin : List Nat → Option (Nat × List Nat)
  | [] => none
  | x :: xs =>
    match selectMin xs with
    | none => some (x, [])
    | some (b, r) => if x ≤ b then some (x, xs) else some (b, x :: r)

/-- Modelled from the spec (4.2): from the current node, select the
unvisited node of minimum distance, ties broken by lowest POI id. -/
def selectNearest (d : Mat) (cur : Nat) : List Nat → Option (Nat × List Nat)
  | [] => none
  | x :: xs =>
    match selectNearest d cur xs with
    | none => some (x, [])
    | some (b, r) =>
      if d cur x < d cur b ∨ (d cur x = d cur b ∧ x < b) then some (x, xs)
      else some (b, x :: r)

/-- Modelled from the spec (4.2): the greedy nearest-neighbor visit order;
the fuel is the number of remaining nodes, matching the spec's "terminates
after exactly n steps". -/
def nnVisit (d : Mat) : Nat → Nat → List Nat → List Nat
  | 0, _, _ => []
  | fuel + 1, cur, remaining =>
    match selectNearest d cur remaining with
    | none => []
    | some (b, r) => b :: nnVisit d fuel b r

/-- Modelled from the spec (4.2): the Tour Constructor starts from the home
base when present, else from the POI of lowest id. -/
def nearestNeighborTour (d : Mat) (home : Option Nat) (pois : List Nat) : List Nat :=
  match home with
  | some h => nnVisit d pois.length h pois
  | none =>
    match selectMin pois with
    | none => []
    | some (s, rest) => s :: nnVisit d rest.length s rest

/-- Sum of matrix entries along consecutive pairs of the order. -/
def pathCost (d : Mat) : List Nat → ℚ
  | a :: b :: rest => d a b + pathCost d (b :: rest)
  | _ => 0

/-- The implicit closing edge from the last node back to the first. -/
def closeCost (d : Mat) (order : List Nat) : ℚ :=
  match order.head?, order.getLast? with
  | some h, some l => d l h
  | _, _ => 0

/-- Modelled from the spec (4.3): total route cost; the closing edge counts
only in round-trip mode. -/
def tourCost (d : Mat) (rt : Bool) (order : List Nat) : ℚ :=
  pathCost d order + (if rt then closeCost d order else 0)

/-- Reverse the positions s..j of the order (the segment between the two
removed edges (s-1,s) and (j,j+1)). -/
def reverseSeg (xs : List Nat) (s j : Nat) : List Nat :=
  xs.take s ++ ((xs.drop s).take (j + 1 - s)).reverse ++ xs.drop (j + 1)

/-- Modelled from the spec (4.3): the candidate moves of one pass, scanned
in ascending index order.  A move (s, j) reverses positions s..j.  With
`has_fixed_start` the first node may not move, so s starts at 1; without a
round trip the closing edge is no candidate, so j stops at n-2. -/
def movePairs (n : Nat) (rt fs : Bool) : List (Nat × Nat) :=
  (List.range' (if fs then 1 else 0) (n - (if fs then 1 else 0))).map
    (fun s => (List.range' (s + 1) ((if rt then n - 1 else n - 2) - s)).map
      (fun j => (s, j)))
  |>.flatten

/-- Modelled from the spec (4.3): a swap is applied exactly when it is a
strict improvement of total cost. -/
def twoOptStep (d : Mat) (rt : Bool) (cur : List Nat) (m : Nat × Nat) : List Nat :=
  if tourCost d rt (reverseSeg cur m.1 m.2) < tourCost d rt cur then reverseSeg cur m.1 m.2
  else cur

/-- One full pass over all candidate moves, applying improving swaps in
index order. -/
def twoOptPass (d : Mat) (rt fs : Bool) (order : List Nat) : List Nat :=
  (movePairs order.length rt fs).foldl (twoOptStep d rt) order

/-- Passes repeat until a pass changes nothing or the pass cap runs out. -/
def twoOptLoop (d : Mat) (rt fs : Bool) : Nat → List Nat → List Nat
  | 0, order => order
  | fuel + 1, order =>
    if twoOptPass d rt fs order = order then order
    else twoOptLoop d rt fs fuel (twoOptPass d rt fs order)

/-- Modelled from the spec (4.3): the Tour Improver, with the pass cap
max(20, 3n). -/
def twoOpt (d : Mat) (rt fs : Bool) (order : List Nat) : List Nat :=
  twoOptLoop d rt fs (max 20 (3 * order.length)) order

/-- Modelled from the spec (4.4): one leg per consecutive pair. -/
structure Leg where
  src : Nat
  dst : Nat
  dist : ℚ
deriving DecidableEq

structure Route where
  order : List Nat
  legs : List Leg
  totalDist : ℚ
  roundTrip : Bool
deriving DecidableEq

def mkLegs (d : Mat) : List Nat → List Leg
  | a :: b :: rest => ⟨a, b, d a b⟩ :: mkLegs d (b :: rest)
  | _ => []

/-- Modelled from the spec (4.4): the Route Assembler; in round-trip mode a
final leg returns from the last node to the first. -/
def assembleRoute (d : Mat) (rt : Bool) (order : List Nat) : Route :=
  let legs := mkLegs d order ++
    (if rt then
      match order.head?, order.getLast? with
      | some h, some l => [⟨l, h, d l h⟩]
      | _, _ => []
    else [])
  ⟨order, legs, (legs.map (fun g => g.dist)).sum, rt⟩

/-- Squared planar distance on (lat, lng); the deterministic geographic
closeness measure used for clustering. -/
def sqDist (a b : ℚ × ℚ) : ℚ := (a.1 - b.1) ^ 2 + (a.2 - b.2) ^ 2

def poiPos (p : POI) : ℚ × ℚ := (p.lat, p.lng)

/-- Index of the minimum of f over 0..n-1, lowest index on ties. -/
def bestIndex (f : Nat → ℚ) (n : Nat) : Nat :=
  (List.range n).foldl (fun b i => if f i < f b then i else b) 0

/-- Modelled from the spec (4.5): assign a POI to its nearest centroid. -/
def assignPoi (cents : List (ℚ × ℚ)) (p : POI) : Nat :=
  bestIndex (fun i => sqDist (cents.getD i (0, 0)) (poiPos p)) cents.length

def centroidOf (ps : List POI) (dflt : ℚ × ℚ) : ℚ × ℚ :=
  if ps.isEmpty then dflt
  else (((ps.map (fun p => p.lat)).sum) / ps.length, ((ps.map (fun p => p.lng)).sum) / ps.length)

/-- Modelled from the spec (4.5): recompute centroids after a full
assignment pass; an empty cluster keeps its previous centroid. -/
def centroids (pois : List POI) (assign : POI → Nat) (old : List (ℚ × ℚ)) : List (ℚ × ℚ) :=
  (List.range old.length).map
    (fun k => centroidOf (pois.filter (fun p => decide (assign p = k))) (old.getD k (0, 0)))

/-- Modelled from the spec (4.5): the bounded, fixed number of
assign-recompute passes (five). -/
def runPasses (pois : List POI) : Nat → List (ℚ × ℚ) → List (ℚ × ℚ)
  | 0, cents => cents
  | n + 1, cents => runPasses pois n (centroids pois (fun p => assignPoi cents p) cents)

/-- Minimum squared distance from a point to any chosen seed. -/
def minDistTo (seeds : List (ℚ × ℚ)) (q : ℚ × ℚ) : ℚ :=
  match seeds with
  | [] => 0
  | c :: rest => rest.foldl (fun acc c2 => min acc (sqDist c2 q)) (sqDist c q)

/-- Select the remaining POI farthest from the chosen seeds, ties broken by
lowest POI id. -/
def selectFarthest (seeds : List (ℚ × ℚ)) : List POI → Option (POI × List POI)
  | [] => none
  | x :: xs =>
    match selectFarthest seeds xs with
    | none => some (x, [])
    | some (b, r) =>
      if minDistTo seeds (poiPos b) < minDistTo seeds (poiPos x) ∨
         (minDistTo seeds (poiPos x) = minDistTo seeds (poiPos b) ∧ x.pid < b.pid)
      then some (x, xs)
      else some (b, x :: r)

/-- Select the POI of lowest id, returning it and the rest. -/
def selectMinPoi : List POI → Option (POI × List POI)
  | [] => none
  | x :: xs =>
    match selectMinPoi xs with
    | none => some (x, [])
    | some (b, r) => if x.pid ≤ b.pid then some (x, xs) else some (b, x :: r)

def buildSeeds : Nat → List (ℚ × ℚ) → List POI → List (ℚ × ℚ)
  | 0, acc, _ => acc
  | f + 1, acc, rem =>
    match selectFarthest acc rem with
    | none => acc
    | some (p, rest) => buildSeeds f (acc ++ [poiPos p]) rest

/-- Modelled from the spec (4.5): greedy farthest-point sampling of D seed
centroids, started deterministically from the lowest-id POI. -/
def farthestSeeds (pois : List POI) (D : Nat) : List (ℚ × ℚ) :=
  match selectMinPoi pois with
  | none => []
  | some (p0, rest) => buildSeeds (D - 1) [poiPos p0] rest

/-- Summed visit duration of the POIs currently assigned to day k. -/
def dayLoad (pois : List POI) (assign : POI → Nat) (k : Nat) : ℚ :=
  ((pois.filter (fun p => decide (assign p = k))).map (fun p => p.visitMinutes)).sum

def findOverloaded (pois : List POI) (assign : POI → Nat) (D : Nat) (budget : ℚ) : Option Nat :=
  (List.range D).find? (fun k => decide (budget < dayLoad pois assign k))

/-- Minimum of f over a list of indices, earliest index on ties. -/
def argminList (f : Nat → ℚ) : List Nat → Option Nat
  | [] => none
  | x :: xs =>
    match argminList f xs with
    | none => some x
    | some b => some (if f x ≤ f b then x else b)

/-- The member of a day farthest from its centroid, ties broken by lowest
POI id. -/
def selectFarthestFrom (c : ℚ × ℚ) : List POI → Option POI
  | [] => none
  | x :: xs =>
    match selectFarthestFrom c xs with
    | none => some x
    | some b =>
      some (if sqDist (poiPos b) c < sqDist (poiPos x) c ∨
              (sqDist (poiPos x) c = sqDist (poiPos b) c ∧ x.pid < b.pid)
            then x else b)

/-- Modelled from the spec (4.5): one budget-shedding move.  The first
over-budget day sheds its farthest-from-centroid POI to the least-loaded
other day; the move is skipped (shedding stops) when it would overload the
receiving day. -/
def shedStep (pois : List POI) (D : Nat) (budget : ℚ) (cents : List (ℚ × ℚ))
    (assign : POI → Nat) : Option (POI → Nat) :=
  match findOverloaded pois assign D budget with
  | none => none
  | some k =>
    match selectFarthestFrom (cents.getD k (0, 0))
            (pois.filter (fun p => decide (assign p = k))) with
    | none => none
    | some p =>
      match argminList (dayLoad pois assign) ((List.range D).filter (fun j => decide (j ≠ k))) with
      | none => none
      | some r =>
        if budget < dayLoad pois assign r + p.visitMinutes then none
        else some (fun q => if q.pid = p.pid then r else assign q)

def shedLoop (pois : List POI) (D : Nat) (budget : ℚ) (cents : List (ℚ × ℚ)) :
    Nat → (POI → Nat) → (POI → Nat)
  | 0, a => a
  | f + 1, a =>
    match shedStep pois D budget cents a with
    | none => a
    | some a2 => shedLoop pois D budget cents f a2

/-- Modelled from the spec (4.5): the complete Day Partitioner assignment:
farthest-point seeds, five bounded k-means passes, then budget shedding. -/
def finalAssign (pois : List POI) (D : Nat) (budget : ℚ) : POI → Nat :=
  shedLoop pois D budget (runPasses pois 5 (farthestSeeds pois D))
    (pois.length * D + pois.length)
    (fun p => assignPoi (runPasses pois 5 (farthestSeeds pois D)) p)

/-- Modelled from the spec (4.5): the D day clusters. -/
def dayClusters (pois : List POI) (D : Nat) (budget : ℚ) : List (List POI) :=
  (List.range D).map (fun k => pois.filter (fun p => decide (finalAssign pois D budget p = k)))

def countIn (l : List String) (s : String) : Nat :=
  (l.filter (fun t => decide (t = s))).length

/-- Modelled from the spec (4.5): the most frequent category label, ties
broken by first occurrence in input order. -/
def mostFrequent (l : List String) : String :=
  match l with
  | [] => ""
  | x :: _ => l.foldl (fun best s => if countIn l best < countIn l s then s else best) x

structure DayPlan where
  dayNumber : Nat
  theme : String
  pois : List POI
  route : Route
deriving DecidableEq

structure Itinerary where
  days : List DayPlan
  degraded : Bool
deriving DecidableEq

inductive EngineError
  | insufficientInput
  | deadlineExceeded
deriving DecidableEq

/-- Modelled from the spec (4.6): the per-day pipeline matrix → constructor
→ improver → assembler over one cluster; `has_fixed_start` holds exactly
when a home base is given. -/
def planDay (gw : Nat → Nat → Option ℚ) (fb : Mat) (rt : Bool) (home : Option Nat)
    (dayNumber : Nat) (members : List POI) : DayPlan :=
  ⟨dayNumber, mostFrequent (members.map (fun p => p.category)), members,
   assembleRoute (buildEntry gw fb) rt
     (twoOpt (buildEntry gw fb) rt home.isSome
       (nearestNeighborTour (buildEntry gw fb) home (members.map (fun p => p.pid))))⟩

/-- Modelled from the spec (section 6): the optimize entry point.  Zero
POIs are rejected immediately with `insufficientInput`; Gateway failures
are absorbed into fallback entries and only set the degraded flag.  The
caller deadline is real time and not modelled, so `deadlineExceeded` is
never produced here. -/
def optimize (gw : Nat → Nat → Option ℚ) (fb : Mat) (pois : List POI) (home : Option Nat)
    (rt : Bool) (dayCount : Nat) (budget : ℚ) : Except EngineError Itinerary :=
  if pois = [] then .error .insufficientInput
  else if dayCount ≤ 1 then
    .ok ⟨[planDay gw fb rt home 1 pois], matrixDegraded gw (pois.map (fun p => p.pid))⟩
  else
    .ok ⟨(dayClusters pois dayCount budget).enum.filterMap
          (fun ic => if ic.2.isEmpty then none else some (planDay gw fb rt home (ic.1 + 1) ic.2)),
         matrixDegraded gw (pois.map (fun p => p.pid))⟩

/-! ## Geodesic fallback (haversine), over the reals

Modelled from the spec (4.1): the fallback entry is the great-circle
distance by the haversine formula (coordinates in degrees), and the
duration is distance over the assumed speed for the mode. -/

inductive TransportMode
  | walking
  | driving
  | transit
deriving DecidableEq

/-- Modelled from the spec (4.1): assumed speeds in km/h. -/
def speedKmh : TransportMode → ℚ
  | .walking => 5
  | .driving => 30
  | .transit => 20

noncomputable def rad (x : ℚ) : ℝ := (x : ℝ) * Real.pi / 180

/-- The haversine of an angle. -/
noncomputable def havFn (θ : ℝ) : ℝ := Real.sin (θ / 2) ^ 2

/-- Modelled from the spec (4.1): great-circle distance in meters between
two (latitude, longitude) pairs in degrees, by the haversine formula with
Earth radius 6371 km. -/
noncomputable def haversineDist (p q : ℚ × ℚ) : ℝ :=
  2 * 6371000 * Real.arcsin (Real.sqrt
    (havFn (rad q.1 - rad p.1) + Real.cos (rad p.1) * Real.cos (rad q.1) * havFn (rad q.2 - rad p.2)))

/-- Modelled from the spec (4.1): fallback duration in seconds, distance
over the mode speed converted to m/s. -/
noncomputable def fallbackDuration (m : TransportMode) (p q : ℚ × ℚ) : ℝ :=
  haversineDist p q / ((speedKmh m : ℝ) * 1000 / 3600)

/-! ## Theorems for the frontend selection state -/

theorem handleAccept_disjoint (cap : Option Nat) (s : SelState) (pid : String)
    (h : Disjoint s.accepted s.rejected) :
    Disjoint (handleAccept cap s pid).accepted (handleAccept cap s pid).rejected := by
  rw [Finset.disjoint_left]
  intro a ha hr
  have har : a ∈ s.rejected := Finset.mem_of_mem_erase hr
  have hane : a ≠ pid := Finset.ne_of_mem_erase hr
  have haa : a ∈ s.accepted := by
    by_cases hc : capReached cap s.accepted.card
    · simpa [handleAccept, hc] using ha
    · have : a ∈ insert pid s.accepted := by simpa [handleAccept, hc] using ha
      rcases Finset.mem_insert.mp this with h1 | h1
      · exact absurd h1 hane
      · exact h1
  exact (Finset.disjoint_left.mp h haa) har

theorem handleReject_disjoint (s : SelState) (pid : String)
    (h : Disjoint s.accepted s.rejected) :
    Disjoint (handleReject s pid).accepted (handleReject s pid).rejected := by
  rw [Finset.disjoint_left]
  intro a ha hr
  have hane : a ≠ pid := Finset.ne_of_mem_erase ha
  have haa : a ∈ s.accepted := Finset.mem_of_mem_erase ha
  rcases Finset.mem_insert.mp hr with h1 | h1
  · exact hane h1
  · exact (Finset.disjoint_left.mp h haa) h1

theorem handleAccept_card (cap : Option Nat) (s : SelState) (pid : String) (m : Nat)
    (hcap : cap = some m) (h : s.accepted.card ≤ m) :
    (handleAccept cap s pid).accepted.card ≤ m := by
  cases hc : capReached cap s.accepted.card with
  | true => simpa [handleAccept, hc] using h
  | false =>
    have hlt : s.accepted.card < m := by
      subst hcap
      simp only [capReached, decide_eq_false_iff_not] at hc
      omega
    have hins : (insert pid s.accepted).card ≤ s.accepted.card + 1 :=
      Finset.card_insert_le _ _
    simp only [handleAccept, hc, Bool.false_eq_true, if_false]
    omega

/-- Invariant carried through any operation sequence. -/
def SelInv (cap : Option Nat) (s : SelState) : Prop :=
  Disjoint s.accepted s.rejected ∧ ∀ m, cap = some m → s.accepted.card ≤ m

theorem applySelOp_inv (cap : Option Nat) (s : SelState) (op : SelOp)
    (h : SelInv cap s) : SelInv cap (applySelOp cap s op) := by
  obtain ⟨hd, hc⟩ := h
  cases op with
  | accept pid =>
    refine ⟨handleAccept_disjoint cap s pid hd, fun m hm => ?_⟩
    exact handleAccept_card cap s pid m hm (hc m hm)
  | reject pid =>
    refine ⟨handleReject_disjoint s pid hd, fun m hm => ?_⟩
    calc (handleReject s pid).accepted.card
        = (s.accepted.erase pid).card := rfl
       _ ≤ s.accepted.card := Finset.card_erase_le
       _ ≤ m := hc m hm

theorem foldl_selInv (cap : Option Nat) (ops : List SelOp) :
    ∀ s : SelState, SelInv cap s → SelInv cap (ops.foldl (applySelOp cap) s) := by
  induction ops with
  | nil => intro s h; simpa using h
  | cons op rest ih =>
    intro s h
    exact ih _ (applySelOp_inv cap s op h)

/-- C9: starting from empty accepted and rejected sets, after every sequence
of `handleAccept` and `handleReject` operations the accepted set and the
rejected set are disjoint, and the accepted set never exceeds the
`maxPois` cap (a `some` cap; `none` models the `Infinity` cap of multi-day
trips). -/
theorem selection_state_invariant (cap : Option Nat) (ops : List SelOp) :
    Disjoint (runSel cap ops).accepted (runSel cap ops).rejected ∧
    (∀ m, cap = some m → (runSel cap ops).accepted.card ≤ m) := by
  have h0 : SelInv cap ⟨∅, ∅⟩ := by
    constructor
    · simp
    · intro m _; simp
  exact foldl_selInv cap ops _ h0

/-- Witness for C9: a concrete run with cap 1 where an accept is refused. -/
theorem selection_state_invariant_witness :
    Disjoint (runSel (some 1) [.accept "a", .reject "a", .accept "b", .accept "c"]).accepted
      (runSel (some 1) [.accept "a", .reject "a", .accept "b", .accept "c"]).rejected ∧
    (runSel (some 1) [.accept "a", .reject "a", .accept "b", .accept "c"]).accepted.card ≤ 1 :=
  ⟨(selection_state_invariant (some 1) [.accept "a", .reject "a", .accept "b", .accept "c"]).1,
   (selection_state_invariant (some 1) [.accept "a", .reject "a", .accept "b", .accept "c"]).2 1 rfl⟩

/-! ## Theorems for the geocode fallback -/

theorem fallbackGeocode_length (oracle : Nat → Option GeoResp) :
    ∀ (places : List GeoPlace) (s : Nat),
      (fallbackGeocode oracle s places).length = places.length := by
  intro places
  induction places with
  | nil => intro s; rfl
  | cons pl rest ih => intro s; simp [fallbackGeocode, ih]

theorem fallbackGeocode_get? (oracle : Nat → Option GeoResp) :
    ∀ (places : List GeoPlace) (s i : Nat),
      (fallbackGeocode oracle s places).get? i =
        (places.get? i).map (fun pl => singleResult (oracle (s + i)) pl) := by
  intro places
  induction places with
  | nil => intro s i; simp [fallbackGeocode]
  | cons pl rest ih =>
    intro s i
    cases i with
    | zero => simp [fallbackGeocode]
    | succ n =>
      have := ih (s + 1) n
      simp only [fallbackGeocode, List.get?_cons_succ]
      rw [this]
      have harith : s + 1 + n = s + (n + 1) := by omega
      rw [harith]

/-- C10: when the backend batch endpoint is non-ok, the POST handler falls
back to per-place lookups and returns exactly one result per requested
place in input order; a place whose individual lookup fails or throws
yields `found = false` with `lat = 0` and `lng = 0` instead of aborting. -/
theorem geocode_fallback_per_place (oracle : Nat → Option GeoResp) (places : List GeoPlace) :
    postGeocode none oracle places = fallbackGeocode oracle 0 places ∧
    (postGeocode none oracle places).length = places.length ∧
    (∀ i pl, places.get? i = some pl →
      (postGeocode none oracle places).get? i = some (singleResult (oracle i) pl)) ∧
    (∀ pl, singleResult none pl = ⟨pl.name, pl.pid, 0, 0, false, none⟩) := by
  refine ⟨rfl, fallbackGeocode_length oracle places 0, ?_, fun pl => rfl⟩
  intro i pl hpl
  have := fallbackGeocode_get? oracle places 0 i
  simp only [postGeocode]
  rw [this, hpl]
  simp

/-- Witness for C10: one place whose lookup throws; the result is a single
not-found entry. -/
theorem geocode_fallback_per_place_witness :
    ([(⟨"Louvre", none⟩ : GeoPlace)].get? 0 = some ⟨"Louvre", none⟩) ∧
    (postGeocode none (fun _ => none) [⟨"Louvre", none⟩]).get? 0 =
      some (singleResult ((fun (_ : Nat) => (none : Option GeoResp)) 0) ⟨"Louvre", none⟩) :=
  ⟨rfl, (geocode_fallback_per_place (fun _ => none) [⟨"Louvre", none⟩]).2.2.1 0
    ⟨"Louvre", none⟩ rfl⟩

/-! ## Theorems for polyline simplification -/

theorem lineDen_nonneg (s e : ℚ × ℚ) : 0 ≤ lineDen s e := by
  unfold lineDen; positivity

theorem scanMax_bounds (s e : ℚ × ℚ) (pts : List (ℚ × ℚ)) :
    scanMax s e pts = (0, 0) ∨
      (1 ≤ (scanMax s e pts).2 ∧ (scanMax s e pts).2 ≤ pts.length - 2) := by
  have key : ∀ (l : List Nat) (acc : ℚ × Nat),
      (∀ i ∈ l, 1 ≤ i ∧ i ≤ pts.length - 2) →
      (acc = (0, 0) ∨ (1 ≤ acc.2 ∧ acc.2 ≤ pts.length - 2)) →
      (l.foldl (scanStep s e pts) acc = (0, 0) ∨
        (1 ≤ (l.foldl (scanStep s e pts) acc).2 ∧
          (l.foldl (scanStep s e pts) acc).2 ≤ pts.length - 2)) := by
    intro l
    induction l with
    | nil => intro acc _ hacc; simpa using hacc
    | cons i r ih =>
      intro acc hmem hacc
      simp only [List.foldl_cons]
      apply ih
      · intro j hj; exact hmem j (List.mem_cons_of_mem _ hj)
      · simp only [scanStep]
        split
        · right
          simpa using hmem i (List.mem_cons_self _ _)
        · exact hacc
  apply key
  · intro i hi
    rw [List.mem_range'_1] at hi
    omega
  · left; rfl

theorem rdpRecurse_num_ne_zero (tol : ℚ) (pts : List (ℚ × ℚ)) (htol : 0 ≤ tol)
    (h : rdpRecurse tol pts = true) :
    (scanMax (pts.headD (0, 0)) (pts.getLastD (0, 0)) pts).1 ≠ 0 := by
  unfold rdpRecurse at h
  by_cases hden : lineDen (pts.headD (0, 0)) (pts.getLastD (0, 0)) = 0
  · rw [if_pos hden] at h
    have : tol < 0 := of_decide_eq_true h
    linarith
  · rw [if_neg hden] at h
    rcases of_decide_eq_true h with h2 | ⟨_, h2⟩
    · linarith
    · intro h0
      rw [h0] at h2
      have hd := lineDen_nonneg (pts.headD (0, 0)) (pts.getLastD (0, 0))
      nlinarith [sq_nonneg tol]

theorem rdpRecurse_idx (tol : ℚ) (pts : List (ℚ × ℚ)) (htol : 0 ≤ tol)
    (h : rdpRecurse tol pts = true) :
    1 ≤ (scanMax (pts.headD (0, 0)) (pts.getLastD (0, 0)) pts).2 ∧
      (scanMax (pts.headD (0, 0)) (pts.getLastD (0, 0)) pts).2 ≤ pts.length - 2 := by
  rcases scanMax_bounds (pts.headD (0, 0)) (pts.getLastD (0, 0)) pts with h0 | hb
  · exact absurd (by rw [h0]) (rdpRecurse_num_ne_zero tol pts htol h)
  · exact hb

theorem head?_take {α : Type} (l : List α) (n : Nat) (hn : 1 ≤ n) :
    (l.take n).head? = l.head? := by
  cases l with
  | nil => simp
  | cons a t => cases n with
    | zero => omega
    | succ m => simp

theorem getLast?_getLastD {α : Type} (l : List α) (d : α) (h : l ≠ []) :
    l.getLast? = some (l.getLastD d) := by
  cases hx : l.getLast? with
  | none => exact absurd (List.getLast?_eq_none_iff.mp hx) h
  | some x => rw [List.getLastD_eq_getLast?, hx]; rfl

theorem getLast?_append_right {α : Type} (l r : List α) (h : r ≠ []) :
    (l ++ r).getLast? = r.getLast? := by
  rw [List.getLast?_append]
  cases hx : r.getLast? with
  | none => exact absurd (List.getLast?_eq_none_iff.mp hx) h
  | some x => rfl

theorem getLast?_drop {α : Type} (l : List α) (n : Nat) (h : n < l.length) :
    (l.drop n).getLast? = l.getLast? := by
  have hne : l.drop n ≠ [] := by
    intro hd
    have := List.length_drop n l
    rw [hd] at this
    simp at this
    omega
  conv_rhs => rw [← List.take_append_drop n l]
  rw [getLast?_append_right _ _ hne]

theorem head?_dropLast_append {α : Type} (L R : List α) (h : 2 ≤ L.length) :
    (L.dropLast ++ R).head? = L.head? := by
  cases L with
  | nil => simp at h
  | cons a t =>
    cases t with
    | nil => simp at h
    | cons b u => rfl

theorem rdpGo_spec (tol : ℚ) (htol : 0 ≤ tol) :
    ∀ (fuel : Nat) (pts : List (ℚ × ℚ)), 2 ≤ pts.length → pts.length < fuel →
      ∃ r, rdpGo fuel tol pts = some r ∧ r.head? = pts.head? ∧
        r.getLast? = pts.getLast? ∧ r.length ≤ pts.length ∧ 2 ≤ r.length := by
  intro fuel
  induction fuel with
  | zero => intro pts h2 hf; omega
  | succ f ih =>
    intro pts h2 hf
    by_cases hle : pts.length ≤ 2
    · refine ⟨pts, ?_, rfl, rfl, le_refl _, h2⟩
      simp [rdpGo, hle]
    · have h3 : 3 ≤ pts.length := by omega
      have hne : pts ≠ [] := by
        intro h; rw [h] at h3; simp at h3
      cases hrec : rdpRecurse tol pts with
      | false =>
        refine ⟨[pts.headD (0, 0), pts.getLastD (0, 0)], ?_, ?_, ?_, by simp; omega, by simp⟩
        · simp [rdpGo, hle, hrec]
        · cases pts with
          | nil => simp at h3
          | cons a t => rfl
        · rw [getLast?_getLastD pts (0, 0) hne]
          rfl
      | true =>
        obtain ⟨hi1, hi2⟩ := rdpRecurse_idx tol pts htol hrec
        set mi := (scanMax (pts.headD (0, 0)) (pts.getLastD (0, 0)) pts).2 with hmi
        have hlt : (pts.take (mi + 1)).length = mi + 1 := by
          rw [List.length_take]; omega
        have hld : (pts.drop mi).length = pts.length - mi := List.length_drop _ _
        obtain ⟨L, hLe, hLh, hLl, hLlen, hL2⟩ :=
          ih (pts.take (mi + 1)) (by omega) (by omega)
        obtain ⟨R, hRe, hRh, hRl, hRlen, hR2⟩ :=
          ih (pts.drop mi) (by omega) (by omega)
        have hRne : R ≠ [] := by
          intro h; rw [h] at hR2; simp at hR2
        refine ⟨L.dropLast ++ R, ?_, ?_, ?_, ?_, ?_⟩
        · simp only [rdpGo, if_neg hle, hrec, if_true, ← hmi]
          rw [hLe, hRe]
        · rw [head?_dropLast_append L R hL2, hLh, head?_take pts (mi + 1) (by omega)]
        · rw [getLast?_append_right _ _ hRne, hRl, getLast?_drop pts mi (by omega)]
        · rw [List.length_append, List.length_dropLast]
          rw [hlt] at hLlen
          rw [hld] at hRlen
          omega
        · rw [List.length_append, List.length_dropLast]
          omega

/-- C8 (amended): for every list of two or more points and every
NONNEGATIVE tolerance, simplifyPolyline terminates and returns a list whose
first element equals the input's first element, whose last element equals
the input's last element, and whose length is at most the input's length.
(The original claim quantified over every tolerance; a negative tolerance
makes the function recurse forever, see the counterexample.) -/
theorem simplifyPolyline_endpoints (tol : ℚ) (pts : List (ℚ × ℚ))
    (htol : 0 ≤ tol) (hlen : 2 ≤ pts.length) :
    ∃ r, simplifyPolyline tol pts = some r ∧ r.head? = pts.head? ∧
      r.getLast? = pts.getLast? ∧ r.length ≤ pts.length := by
  obtain ⟨r, h1, h2, h3, h4, _⟩ :=
    rdpGo_spec tol htol (pts.length + 1) pts hlen (by omega)
  exact ⟨r, h1, h2, h3, h4⟩

/-- Witness for C8: a concrete three-point run with tolerance 1. -/
theorem simplifyPolyline_endpoints_witness :
    (0 : ℚ) ≤ 1 ∧ 2 ≤ ([((0 : ℚ), (0 : ℚ)), (3, 4), (6, 0)] : List (ℚ × ℚ)).length ∧
    ∃ r, simplifyPolyline 1 [((0 : ℚ), (0 : ℚ)), (3, 4), (6, 0)] = some r ∧
      r.head? = ([((0 : ℚ), (0 : ℚ)), (3, 4), (6, 0)] : List (ℚ × ℚ)).head? ∧
      r.getLast? = ([((0 : ℚ), (0 : ℚ)), (3, 4), (6, 0)] : List (ℚ × ℚ)).getLast? ∧
      r.length ≤ ([((0 : ℚ), (0 : ℚ)), (3, 4), (6, 0)] : List (ℚ × ℚ)).length :=
  ⟨by norm_num, by decide,
   simplifyPolyline_endpoints 1 [((0 : ℚ), (0 : ℚ)), (3, 4), (6, 0)] (by norm_num) (by decide)⟩

theorem rdpGo_single (tol : ℚ) (p : ℚ × ℚ) (f : Nat) (hf : 1 ≤ f) :
    rdpGo f tol [p] = some [p] := by
  cases f with
  | zero => omega
  | succ g => rfl

/-- With a negative tolerance and three coincident points the source
function recurses on an identical slice: no amount of fuel suffices. -/
theorem rdpGo_neg_tol_diverges :
    ∀ fuel : Nat, rdpGo fuel (-1) [((0 : ℚ), (0 : ℚ)), (0, 0), (0, 0)] = none := by
  intro fuel
  induction fuel with
  | zero => rfl
  | succ f ih =>
    have hh : ([((0 : ℚ), (0 : ℚ)), (0, 0), (0, 0)] : List (ℚ × ℚ)).headD (0, 0) =
        ((0 : ℚ), (0 : ℚ)) := rfl
    have hl : ([((0 : ℚ), (0 : ℚ)), (0, 0), (0, 0)] : List (ℚ × ℚ)).getLastD (0, 0) =
        ((0 : ℚ), (0 : ℚ)) := rfl
    have hperp : perpNum (0 : ℚ × ℚ) 0 0 = 0 := by
      norm_num [perpNum]
    have hscan : scanMax ((0 : ℚ), (0 : ℚ)) ((0 : ℚ), (0 : ℚ))
        ([((0 : ℚ), (0 : ℚ)), (0, 0), (0, 0)] : List (ℚ × ℚ)) = ((0 : ℚ), (0 : Nat)) := by
      unfold scanMax
      rw [show ([((0 : ℚ), (0 : ℚ)), (0, 0), (0, 0)] : List (ℚ × ℚ)).length - 2 = 1 from rfl]
      rw [show List.range' 1 1 = [1] from rfl]
      simp [scanStep, hperp]
    have hrec : rdpRecurse (-1) [((0 : ℚ), (0 : ℚ)), (0, 0), (0, 0)] = true := by
      have hden : lineDen ((0 : ℚ), (0 : ℚ)) ((0 : ℚ), (0 : ℚ)) = 0 := by norm_num [lineDen]
      unfold rdpRecurse
      rw [hh, hl, if_pos hden]
      simp only [decide_eq_true_eq]
      norm_num
    simp only [rdpGo]
    rw [if_neg (by decide : ¬([((0 : ℚ), (0 : ℚ)), (0, 0), (0, 0)] : List (ℚ × ℚ)).length ≤ 2)]
    rw [hh, hl, hscan, if_pos hrec]
    rw [show (((0 : ℚ), (0 : Nat)) : ℚ × Nat).2 = 0 from rfl]
    rw [show List.drop 0 ([((0 : ℚ), (0 : ℚ)), (0, 0), (0, 0)] : List (ℚ × ℚ)) =
        [((0 : ℚ), (0 : ℚ)), (0, 0), (0, 0)] from rfl]
    rw [ih]
    cases rdpGo f (-1) (([((0 : ℚ), (0 : ℚ)), (0, 0), (0, 0)] : List (ℚ × ℚ)).take (0 + 1)) <;> rfl

/-- Counterexample to C8 as stated: for tolerance -1 and a list of three
(coincident) points the recursion never terminates; the fuelled embedding
returns none at its canonical fuel (and rdpGo_neg_tol_diverges shows no
fuel suffices). -/
theorem simplifyPolyline_neg_tol_counterexample :
    2 ≤ ([((0 : ℚ), (0 : ℚ)), (0, 0), (0, 0)] : List (ℚ × ℚ)).length ∧
    simplifyPolyline (-1) [((0 : ℚ), (0 : ℚ)), (0, 0), (0, 0)] = none :=
  ⟨by decide, rdpGo_neg_tol_diverges 4⟩

/-! ## Theorems for the Tour Improver -/

theorem twoOptStep_cost_le (d : Mat) (rt : Bool) (cur : List Nat) (m : Nat × Nat) :
    tourCost d rt (twoOptStep d rt cur m) ≤ tourCost d rt cur := by
  unfold twoOptStep
  split
  · exact le_of_lt (by assumption)
  · exact le_refl _

theorem foldl_twoOptStep_cost_le (d : Mat) (rt : Bool) :
    ∀ (ms : List (Nat × Nat)) (cur : List Nat),
      tourCost d rt (ms.foldl (twoOptStep d rt) cur) ≤ tourCost d rt cur := by
  intro ms
  induction ms with
  | nil => intro cur; exact le_refl _
  | cons m rest ih =>
    intro cur
    calc tourCost d rt ((m :: rest).foldl (twoOptStep d rt) cur)
        = tourCost d rt (rest.foldl (twoOptStep d rt) (twoOptStep d rt cur m)) := by
          rw [List.foldl_cons]
      _ ≤ tourCost d rt (twoOptStep d rt cur m) := ih _
      _ ≤ tourCost d rt cur := twoOptStep_cost_le d rt cur m

theorem twoOptPass_cost_le (d : Mat) (rt fs : Bool) (order : List Nat) :
    tourCost d rt (twoOptPass d rt fs order) ≤ tourCost d rt order :=
  foldl_twoOptStep_cost_le d rt _ order

theorem twoOptLoop_cost_le (d : Mat) (rt fs : Bool) :
    ∀ (fuel : Nat) (order : List Nat),
      tourCost d rt (twoOptLoop d rt fs fuel order) ≤ tourCost d rt order := by
  intro fuel
  induction fuel with
  | zero => intro order; exact le_refl _
  | succ f ih =>
    intro order
    unfold twoOptLoop
    split
    · exact le_refl _
    · exact le_trans (ih _) (twoOptPass_cost_le d rt fs order)

/-- C1: for every ordered POI sequence, distance matrix and flag
combination (is_round_trip, has_fixed_start), the Tour Improver returns a
sequence whose total route cost is at most the input's, in both round-trip
and open-path modes. -/
theorem twoOpt_cost_le (d : Mat) (rt fs : Bool) (order : List Nat) :
    tourCost d rt (twoOpt d rt fs order) ≤ tourCost d rt order :=
  twoOptLoop_cost_le d rt fs _ order

theorem reverseSeg_head? (xs : List Nat) (s j : Nat) (hs : 1 ≤ s) :
    (reverseSeg xs s j).head? = xs.head? := by
  cases xs with
  | nil => simp [reverseSeg]
  | cons a t =>
    cases s with
    | zero => omega
    | succ n => simp [reverseSeg, List.take_succ_cons]

theorem movePairs_fst_ge (n : Nat) (rt : Bool) (m : Nat × Nat)
    (hm : m ∈ movePairs n rt true) : 1 ≤ m.1 := by
  unfold movePairs at hm
  simp only [if_true, List.mem_flatten, List.mem_map] at hm
  obtain ⟨l, ⟨s, hs, rfl⟩, hml⟩ := hm
  simp only [List.mem_map] at hml
  obtain ⟨j, hj, rfl⟩ := hml
  rw [List.mem_range'_1] at hs
  omega

theorem twoOptStep_head? (d : Mat) (rt : Bool) (cur : List Nat) (m : Nat × Nat)
    (hm : 1 ≤ m.1) : (twoOptStep d rt cur m).head? = cur.head? := by
  unfold twoOptStep
  split
  · exact reverseSeg_head? cur m.1 m.2 hm
  · rfl

theorem foldl_twoOptStep_head? (d : Mat) (rt : Bool) :
    ∀ (ms : List (Nat × Nat)) (cur : List Nat), (∀ m ∈ ms, 1 ≤ m.1) →
      (ms.foldl (twoOptStep d rt) cur).head? = cur.head? := by
  intro ms
  induction ms with
  | nil => intro cur _; rfl
  | cons m rest ih =>
    intro cur hms
    rw [List.foldl_cons, ih _ (fun x hx => hms x (List.mem_cons_of_mem _ hx)),
        twoOptStep_head? d rt cur m (hms m (List.mem_cons_self _ _))]

theorem twoOptPass_head? (d : Mat) (rt : Bool) (order : List Nat) :
    (twoOptPass d rt true order).head? = order.head? :=
  foldl_twoOptStep_head? d rt _ order (fun m hm => movePairs_fst_ge order.length rt m hm)

theorem twoOptLoop_head? (d : Mat) (rt : Bool) :
    ∀ (fuel : Nat) (order : List Nat),
      (twoOptLoop d rt true fuel order).head? = order.head? := by
  intro fuel
  induction fuel with
  | zero => intro order; rfl
  | succ f ih =>
    intro order
    unfold twoOptLoop
    split
    · rfl
    · rw [ih _, twoOptPass_head? d rt order]

/-- C7: with has_fixed_start = true the first element of the Tour
Improver's output equals the input's first element: no candidate reversal
ever moves the node at index 0. -/
theorem twoOpt_fixed_start (d : Mat) (rt : Bool) (order : List Nat) :
    (twoOpt d rt true order).head? = order.head? :=
  twoOptLoop_head? d rt _ order

/-! ## Theorems for the Tour Constructor -/

theorem selectNearest_eq_none (d : Mat) (cur : Nat) (l : List Nat)
    (h : selectNearest d cur l = none) : l = [] := by
  cases l with
  | nil => rfl
  | cons x xs =>
    exfalso
    simp only [selectNearest] at h
    cases hx : selectNearest d cur xs with
    | none => simp [hx] at h
    | some p =>
      obtain ⟨b, r⟩ := p
      simp only [hx] at h
      split at h <;> simp at h

theorem selectNearest_perm (d : Mat) (cur : Nat) :
    ∀ (l : List Nat) (b : Nat) (r : List Nat),
      selectNearest d cur l = some (b, r) → (b :: r).Perm l := by
  intro l
  induction l with
  | nil => intro b r h; simp [selectNearest] at h
  | cons x xs ih =>
    intro b r h
    simp only [selectNearest] at h
    cases hx : selectNearest d cur xs with
    | none =>
      have hnil : xs = [] := selectNearest_eq_none d cur xs hx
      simp only [hx] at h
      injection h with h1
      injection h1 with hb hr
      subst hb; subst hr; subst hnil
      exact List.Perm.refl _
    | some p =>
      obtain ⟨b2, r2⟩ := p
      simp only [hx] at h
      have hp := ih b2 r2 hx
      by_cases hc : d cur x < d cur b2 ∨ (d cur x = d cur b2 ∧ x < b2)
      · rw [if_pos hc] at h
        injection h with h1
        injection h1 with hb hr
        subst hb; subst hr
        exact List.Perm.refl _
      · rw [if_neg hc] at h
        injection h with h1
        injection h1 with hb hr
        subst hb; subst hr
        exact List.Perm.trans (List.Perm.swap x b2 r2) (hp.cons x)

theorem nnVisit_perm (d : Mat) :
    ∀ (fuel : Nat) (cur : Nat) (l : List Nat), l.length ≤ fuel →
      (nnVisit d fuel cur l).Perm l := by
  intro fuel
  induction fuel with
  | zero =>
    intro cur l hl
    have : l = [] := List.eq_nil_of_length_eq_zero (by omega)
    subst this
    simp [nnVisit]
  | succ f ih =>
    intro cur l hl
    simp only [nnVisit]
    cases hx : selectNearest d cur l with
    | none =>
      have : l = [] := selectNearest_eq_none d cur l hx
      subst this
      simp
    | some p =>
      obtain ⟨b, r⟩ := p
      have hp := selectNearest_perm d cur l b r hx
      have hlen : r.length + 1 = l.length := by
        have := hp.length_eq
        simpa using this
      exact ((ih b r (by omega)).cons b).trans hp

theorem selectMin_eq_none (l : List Nat) (h : selectMin l = none) : l = [] := by
  cases l with
  | nil => rfl
  | cons x xs =>
    exfalso
    simp only [selectMin] at h
    cases hx : selectMin xs with
    | none => simp [hx] at h
    | some p =>
      obtain ⟨b, r⟩ := p
      simp only [hx] at h
      split at h <;> simp at h

theorem selectMin_perm :
    ∀ (l : List Nat) (b : Nat) (r : List Nat),
      selectMin l = some (b, r) → (b :: r).Perm l := by
  intro l
  induction l with
  | nil => intro b r h; simp [selectMin] at h
  | cons x xs ih =>
    intro b r h
    simp only [selectMin] at h
    cases hx : selectMin xs with
    | none =>
      have hnil : xs = [] := selectMin_eq_none xs hx
      simp only [hx] at h
      injection h with h1
      injection h1 with hb hr
      subst hb; subst hr; subst hnil
      exact List.Perm.refl _
    | some p =>
      obtain ⟨b2, r2⟩ := p
      simp only [hx] at h
      have hp := ih b2 r2 hx
      by_cases hc : x ≤ b2
      · rw [if_pos hc] at h
        injection h with h1
        injection h1 with hb hr
        subst hb; subst hr
        exact List.Perm.refl _
      · rw [if_neg hc] at h
        injection h with h1
        injection h1 with hb hr
        subst hb; subst hr
        exact List.Perm.trans (List.Perm.swap x b2 r2) (hp.cons x)

/-- C2: for every POI set of size at least 1 and every distance matrix,
the Tour Constructor's output is a permutation of all input POIs: each
appears exactly once, none missing, none duplicated. -/
theorem nearestNeighborTour_perm (d : Mat) (home : Option Nat) (pois : List Nat)
    (h : pois ≠ []) : (nearestNeighborTour d home pois).Perm pois := by
  cases home with
  | some hb => exact nnVisit_perm d pois.length hb pois (le_refl _)
  | none =>
    cases hx : selectMin pois with
    | none => exact absurd (selectMin_eq_none pois hx) h
    | some p =>
      obtain ⟨s, rest⟩ := p
      simp only [nearestNeighborTour, hx]
      have hp := selectMin_perm pois s rest hx
      exact ((nnVisit_perm d rest.length s rest (le_refl _)).cons s).trans hp

/-- Witness for C2: a concrete two-node tour is a permutation of the
input. -/
theorem nearestNeighborTour_perm_witness :
    ([(2 : Nat), 1] ≠ []) ∧ (nearestNeighborTour (fun _ _ => 0) none [2, 1]).Perm [2, 1] :=
  ⟨by simp, nearestNeighborTour_perm (fun _ _ => 0) none [2, 1] (by simp)⟩

/-! ## Theorems for determinism and the optimize entry point -/

theorem selectNearest_min (d : Mat) (cur : Nat) :
    ∀ (l : List Nat) (b : Nat) (r : List Nat),
      selectNearest d cur l = some (b, r) →
        b ∈ l ∧ ∀ y ∈ l, d cur b < d cur y ∨ (d cur b = d cur y ∧ b ≤ y) := by
  intro l
  induction l with
  | nil => intro b r h; simp [selectNearest] at h
  | cons x xs ih =>
    intro b r h
    simp only [selectNearest] at h
    cases hx : selectNearest d cur xs with
    | none =>
      have hnil : xs = [] := selectNearest_eq_none d cur xs hx
      simp only [hx] at h
      injection h with h1
      injection h1 with hb hr
      subst hb; subst hnil
      refine ⟨List.mem_cons_self _ _, ?_⟩
      intro y hy
      rcases List.mem_cons.mp hy with rfl | hy'
      · exact Or.inr ⟨rfl, le_refl _⟩
      · simp at hy'
    | some p =>
      obtain ⟨b2, r2⟩ := p
      simp only [hx] at h
      obtain ⟨hmem, hmin⟩ := ih b2 r2 hx
      by_cases hc : d cur x < d cur b2 ∨ (d cur x = d cur b2 ∧ x < b2)
      · rw [if_pos hc] at h
        injection h with h1
        injection h1 with hb hr
        subst hb
        refine ⟨List.mem_cons_self _ _, ?_⟩
        intro y hy
        rcases List.mem_cons.mp hy with rfl | hy'
        · exact Or.inr ⟨rfl, le_refl _⟩
        · rcases hmin y hy' with h1 | ⟨h1, h2⟩
          · rcases hc with h3 | ⟨h3, h4⟩
            · exact Or.inl (lt_trans h3 h1)
            · exact Or.inl (h3 ▸ h1)
          · rcases hc with h3 | ⟨h3, h4⟩
            · exact Or.inl (h1 ▸ h3)
            · exact Or.inr ⟨h3.trans h1, le_of_lt (lt_of_lt_of_le h4 h2)⟩
      · rw [if_neg hc] at h
        injection h with h1
        injection h1 with hb hr
        subst hb
        refine ⟨List.mem_cons_of_mem _ hmem, ?_⟩
        intro y hy
        rcases List.mem_cons.mp hy with rfl | hy'
        · push_neg at hc
          obtain ⟨h1, h2⟩ := hc
          rcases lt_or_eq_of_le h1 with h3 | h3
          · exact Or.inl h3
          · exact Or.inr ⟨h3, h2 h3.symm⟩
        · exact hmin y hy'

/-- C6: the full pipeline is a deterministic function of its inputs: two
runs on identical inputs (POIs, gateway responses, fallback, flags)
produce identical Itinerary values, and the nearest-neighbor selection
realizes the lowest-id tie-break (the returned node minimizes distance,
and among equal distances has the least id).  Improving swaps are applied
by a fold in fixed index order (twoOptPass). -/
theorem pipeline_deterministic (gw : Nat → Nat → Option ℚ) (fb : Mat)
    (pois1 pois2 : List POI) (home : Option Nat) (rt : Bool) (D : Nat) (budget : ℚ)
    (h : pois1 = pois2) :
    optimize gw fb pois1 home rt D budget = optimize gw fb pois2 home rt D budget ∧
    (∀ (d : Mat) (cur : Nat) (l : List Nat) (b : Nat) (r : List Nat),
      selectNearest d cur l = some (b, r) →
        b ∈ l ∧ ∀ y ∈ l, d cur b < d cur y ∨ (d cur b = d cur y ∧ b ≤ y)) :=
  ⟨by rw [h], fun d cur l b r hs => selectNearest_min d cur l b r hs⟩

/-- Witness for C6: one concrete run compared with itself. -/
theorem pipeline_deterministic_witness :
    optimize (fun _ _ => none) (fun _ _ => 1) [(⟨0, 0, 0, 60, "museum"⟩ : POI)] none true 1 0 =
      optimize (fun _ _ => none) (fun _ _ => 1) [(⟨0, 0, 0, 60, "museum"⟩ : POI)] none true 1 0 :=
  (pipeline_deterministic (fun _ _ => none) (fun _ _ => 1) [⟨0, 0, 0, 60, "museum"⟩]
    [⟨0, 0, 0, 60, "museum"⟩] none true 1 0 rfl).1

/-- C5: the optimize entry point fails only with insufficientInput; zero
POIs are rejected immediately with no partial result; every gateway-level
failure (any gw function, including all-failing ones) is absorbed and the
engine still returns ok; and the frontend guard refuses route generation
for an empty selection before calling the backend. -/
theorem optimize_failure_modes (gw : Nat → Nat → Option ℚ) (fb : Mat) (pois : List POI)
    (home : Option Nat) (rt : Bool) (D : Nat) (budget : ℚ) (discovered : List String) :
    (optimize gw fb [] home rt D budget = .error .insufficientInput) ∧
    (∀ e, optimize gw fb pois home rt D budget = .error e →
      pois = [] ∧ e = .insufficientInput) ∧
    (pois ≠ [] → ∃ it, optimize gw fb pois home rt D budget = .ok it) ∧
    handleGenerateRoute discovered ∅ = none := by
  refine ⟨by simp [optimize], ?_, ?_, by simp [handleGenerateRoute]⟩
  · intro e he
    by_cases hp : pois = []
    · subst hp
      simp only [optimize, if_pos rfl] at he
      injection he with h1
      exact ⟨rfl, h1.symm⟩
    · exfalso
      by_cases hd : D ≤ 1
      · simp [optimize, hp, hd] at he
      · simp [optimize, hp, hd] at he
  · intro hp
    by_cases hd : D ≤ 1
    · exact ⟨⟨[planDay gw fb rt home 1 pois], matrixDegraded gw (pois.map (fun p => p.pid))⟩,
        by simp [optimize, hp, hd]⟩
    · exact ⟨⟨(dayClusters pois D budget).enum.filterMap
          (fun ic => if ic.2.isEmpty then none
            else some (planDay gw fb rt home (ic.1 + 1) ic.2)),
        matrixDegraded gw (pois.map (fun p => p.pid))⟩,
        by simp [optimize, hp, hd]⟩

/-- Witness for C5: a one-POI request with an all-failing gateway still
returns ok. -/
theorem optimize_failure_modes_witness :
    ([(⟨0, 0, 0, 60, "museum"⟩ : POI)] ≠ []) ∧
    (∃ it, optimize (fun _ _ => none) (fun _ _ => 1)
      [(⟨0, 0, 0, 60, "museum"⟩ : POI)] none true 1 0 = .ok it) :=
  ⟨by simp,
   (optimize_failure_modes (fun _ _ => none) (fun _ _ => 1) [⟨0, 0, 0, 60, "museum"⟩]
     none true 1 0 []).2.2.1 (by simp)⟩

/-! ## Theorems for the Day Partitioner -/

theorem bestIndex_lt (f : Nat → ℚ) (n : Nat) : bestIndex f n < max 1 n := by
  have key : ∀ (l : List Nat) (b : Nat), b < max 1 n → (∀ i ∈ l, i < max 1 n) →
      l.foldl (fun b i => if f i < f b then i else b) b < max 1 n := by
    intro l
    induction l with
    | nil => intro b hb _; simpa using hb
    | cons i r ih =>
      intro b hb hl
      rw [List.foldl_cons]
      apply ih
      · split
        · exact hl i (List.mem_cons_self _ _)
        · exact hb
      · intro j hj
        exact hl j (List.mem_cons_of_mem _ hj)
  apply key
  · omega
  · intro i hi
    have := List.mem_range.mp hi
    omega

theorem buildSeeds_length_le :
    ∀ (f : Nat) (acc : List (ℚ × ℚ)) (rem : List POI),
      (buildSeeds f acc rem).length ≤ acc.length + f := by
  intro f
  induction f with
  | zero => intro acc rem; simp [buildSeeds]
  | succ g ih =>
    intro acc rem
    simp only [buildSeeds]
    cases hx : selectFarthest acc rem with
    | none => simp
    | some pr =>
      obtain ⟨p, rest⟩ := pr
      have := ih (acc ++ [poiPos p]) rest
      simp only [List.length_append, List.length_cons, List.length_nil] at this
      show (buildSeeds g (acc ++ [poiPos p]) rest).length ≤ acc.length + (g + 1)
      omega

theorem farthestSeeds_length_le (pois : List POI) (D : Nat) (hD : 1 ≤ D) :
    (farthestSeeds pois D).length ≤ D := by
  unfold farthestSeeds
  cases hx : selectMinPoi pois with
  | none => simp
  | some pr =>
    obtain ⟨p0, rest⟩ := pr
    have := buildSeeds_length_le (D - 1) [poiPos p0] rest
    simp only [List.length_cons, List.length_nil] at this
    show (buildSeeds (D - 1) [poiPos p0] rest).length ≤ D
    omega

theorem centroids_length (pois : List POI) (assign : POI → Nat) (old : List (ℚ × ℚ)) :
    (centroids pois assign old).length = old.length := by
  simp [centroids]

theorem runPasses_length (pois : List POI) :
    ∀ (n : Nat) (cents : List (ℚ × ℚ)), (runPasses pois n cents).length = cents.length := by
  intro n
  induction n with
  | zero => intro cents; rfl
  | succ k ih =>
    intro cents
    simp only [runPasses]
    rw [ih, centroids_length]

theorem assignPoi_lt (cents : List (ℚ × ℚ)) (p : POI) (D : Nat) (hD : 1 ≤ D)
    (hc : cents.length ≤ D) : assignPoi cents p < D := by
  have h1 := bestIndex_lt (fun i => sqDist (cents.getD i (0, 0)) (poiPos p)) cents.length
  have h2 : max 1 cents.length ≤ D := max_le hD hc
  unfold assignPoi
  exact lt_of_lt_of_le h1 h2

theorem argminList_mem (f : Nat → ℚ) :
    ∀ (l : List Nat) (r : Nat), argminList f l = some r → r ∈ l := by
  intro l
  induction l with
  | nil => intro r h; simp [argminList] at h
  | cons x xs ih =>
    intro r h
    simp only [argminList] at h
    cases hx : argminList f xs with
    | none =>
      simp only [hx] at h
      injection h with h1
      exact h1 ▸ List.mem_cons_self _ _
    | some b =>
      simp only [hx] at h
      injection h with h1
      by_cases hc : f x ≤ f b
      · rw [if_pos hc] at h1
        exact h1 ▸ List.mem_cons_self _ _
      · rw [if_neg hc] at h1
        exact h1 ▸ List.mem_cons_of_mem _ (ih b hx)

theorem shedStep_lt (pois : List POI) (D : Nat) (budget : ℚ) (cents : List (ℚ × ℚ))
    (assign : POI → Nat) (a2 : POI → Nat)
    (hstep : shedStep pois D budget cents assign = some a2)
    (hinv : ∀ p, assign p < D) : ∀ p, a2 p < D := by
  unfold shedStep at hstep
  split at hstep
  · exact absurd hstep (by simp)
  · split at hstep
    · exact absurd hstep (by simp)
    · split at hstep
      · exact absurd hstep (by simp)
      · split at hstep
        · exact absurd hstep (by simp)
        · injection hstep with h5
          subst h5
          intro q
          beta_reduce
          split
          · exact List.mem_range.mp (List.mem_filter.mp
              (argminList_mem _ _ _ (by assumption))).1
          · exact hinv q

theorem shedLoop_lt (pois : List POI) (D : Nat) (budget : ℚ) (cents : List (ℚ × ℚ)) :
    ∀ (fuel : Nat) (a : POI → Nat), (∀ p, a p < D) →
      ∀ p, shedLoop pois D budget cents fuel a p < D := by
  intro fuel
  induction fuel with
  | zero => intro a ha; exact ha
  | succ f ih =>
    intro a ha p
    simp only [shedLoop]
    cases hx : shedStep pois D budget cents a with
    | none => exact ha p
    | some a2 => exact ih a2 (shedStep_lt pois D budget cents a a2 hx ha) p

theorem finalAssign_lt (pois : List POI) (D : Nat) (budget : ℚ) (hD : 1 ≤ D) (p : POI) :
    finalAssign pois D budget p < D := by
  unfold finalAssign
  apply shedLoop_lt
  intro q
  apply assignPoi_lt _ _ D hD
  rw [runPasses_length]
  exact farthestSeeds_length_le pois D hD

/-- C3: for every input POI set and every day count D between 1 and the
POI count, the Day Partitioner's D day subsets cover the input exactly
(every input POI lies in some day, every day only holds input POIs) and
are pairwise disjoint, so every input POI is assigned to exactly one day. -/
theorem dayClusters_partition (pois : List POI) (D : Nat) (budget : ℚ)
    (hD1 : 1 ≤ D) (_hD2 : D ≤ pois.length) :
    (dayClusters pois D budget).length = D ∧
    (∀ p ∈ pois, ∃ c ∈ dayClusters pois D budget, p ∈ c) ∧
    (∀ c ∈ dayClusters pois D budget, ∀ p ∈ c, p ∈ pois) ∧
    (dayClusters pois D budget).Pairwise (fun c1 c2 => ∀ p, p ∈ c1 → p ∉ c2) := by
  refine ⟨by simp [dayClusters], ?_, ?_, ?_⟩
  · intro p hp
    refine ⟨pois.filter
      (fun q => decide (finalAssign pois D budget q = finalAssign pois D budget p)), ?_, ?_⟩
    · unfold dayClusters
      exact List.mem_map.mpr ⟨finalAssign pois D budget p,
        List.mem_range.mpr (finalAssign_lt pois D budget hD1 p), rfl⟩
    · exact List.mem_filter.mpr ⟨hp, by simp⟩
  · intro c hc p hpc
    unfold dayClusters at hc
    obtain ⟨k, hk, rfl⟩ := List.mem_map.mp hc
    exact (List.mem_filter.mp hpc).1
  · unfold dayClusters
    rw [List.pairwise_map]
    apply List.Pairwise.imp ?_ (List.nodup_range D)
    intro a b hab p hpa hpb
    have h1 := (List.mem_filter.mp hpa).2
    have h2 := (List.mem_filter.mp hpb).2
    simp only [decide_eq_true_eq] at h1 h2
    exact hab (h1.symm.trans h2)

/-- Witness for C3: two POIs split over two days. -/
theorem dayClusters_partition_witness :
    (1 ≤ 2) ∧
    (2 ≤ ([(⟨0, 0, 0, 60, "museum"⟩ : POI), ⟨1, 1, 1, 60, "cafe"⟩] : List POI).length) ∧
    (dayClusters [(⟨0, 0, 0, 60, "museum"⟩ : POI), ⟨1, 1, 1, 60, "cafe"⟩] 2 100).length = 2 :=
  ⟨by decide, by decide,
   (dayClusters_partition [(⟨0, 0, 0, 60, "museum"⟩ : POI), ⟨1, 1, 1, 60, "cafe"⟩] 2 100
     (by decide) (by decide)).1⟩

/-! ## Theorems for the geodesic fallback and the degraded itinerary -/

theorem havFn_nonneg (θ : ℝ) : 0 ≤ havFn θ := sq_nonneg _

theorem sin_ne_zero_of_small (x : ℝ) (hx : x ≠ 0) (hb : |x| < Real.pi) :
    Real.sin x ≠ 0 := by
  rcases lt_or_gt_of_ne hx with h | h
  · have h1 : 0 < -x := by linarith
    have h2 : -x < Real.pi := by
      rw [abs_of_neg h] at hb
      exact hb
    have h3 := Real.sin_pos_of_pos_of_lt_pi h1 h2
    intro h0
    rw [← neg_neg x, Real.sin_neg] at h0
    linarith
  · have h2 : x < Real.pi := by
      rw [abs_of_pos h] at hb
      exact hb
    exact (Real.sin_pos_of_pos_of_lt_pi h h2).ne'

theorem rad_bounds_lat (x : ℚ) (h1 : -90 ≤ x) (h2 : x ≤ 90) :
    -(Real.pi / 2) ≤ rad x ∧ rad x ≤ Real.pi / 2 := by
  unfold rad
  have hpi := Real.pi_pos
  have ha : (-90 : ℝ) ≤ (x : ℝ) := by exact_mod_cast h1
  have hb : (x : ℝ) ≤ 90 := by exact_mod_cast h2
  constructor <;> nlinarith

theorem cos_rad_nonneg (x : ℚ) (h1 : -90 ≤ x) (h2 : x ≤ 90) : 0 ≤ Real.cos (rad x) := by
  have h := rad_bounds_lat x h1 h2
  exact Real.cos_nonneg_of_mem_Icc ⟨h.1, h.2⟩

theorem cos_rad_pos (x : ℚ) (h1 : -90 < x) (h2 : x < 90) : 0 < Real.cos (rad x) := by
  have hpi := Real.pi_pos
  have ha : (-90 : ℝ) < (x : ℝ) := by exact_mod_cast h1
  have hb : (x : ℝ) < 90 := by exact_mod_cast h2
  apply Real.cos_pos_of_mem_Ioo
  constructor
  · show -(Real.pi / 2) < rad x
    unfold rad
    nlinarith
  · show rad x < Real.pi / 2
    unfold rad
    nlinarith

theorem havFn_rad_pos (a b : ℚ) (hne : a ≠ b) (habs : |(a : ℝ) - (b : ℝ)| < 360) :
    0 < havFn (rad a - rad b) := by
  unfold havFn
  apply pow_two_pos_of_ne_zero
  apply sin_ne_zero_of_small
  · unfold rad
    intro h0
    apply hne
    rw [show ((a : ℝ) * Real.pi / 180 - (b : ℝ) * Real.pi / 180) / 2 =
        ((a : ℝ) - (b : ℝ)) * (Real.pi / 360) from by ring] at h0
    rcases mul_eq_zero.mp h0 with h2 | h2
    · have : (a : ℝ) = (b : ℝ) := by linarith
      exact_mod_cast this
    · exfalso
      rw [div_eq_zero_iff] at h2
      rcases h2 with h3 | h3
      · exact Real.pi_ne_zero h3
      · norm_num at h3
  · unfold rad
    have hpi := Real.pi_pos
    rw [show ((a : ℝ) * Real.pi / 180 - (b : ℝ) * Real.pi / 180) / 2 =
        ((a : ℝ) - (b : ℝ)) * (Real.pi / 360) from by ring]
    rw [abs_mul, abs_of_pos (by positivity : (0 : ℝ) < Real.pi / 360)]
    calc |(a : ℝ) - (b : ℝ)| * (Real.pi / 360)
        < 360 * (Real.pi / 360) := by
          exact mul_lt_mul_of_pos_right habs (by positivity)
      _ = Real.pi := by ring

theorem haversineDist_self (x : ℚ × ℚ) : haversineDist x x = 0 := by
  unfold haversineDist havFn
  simp [sub_self, zero_div, Real.sin_zero, Real.sqrt_zero, Real.arcsin_zero]

theorem haversineDist_nonneg (x y : ℚ × ℚ) : 0 ≤ haversineDist x y := by
  unfold haversineDist
  apply mul_nonneg (by norm_num)
  exact Real.arcsin_nonneg.mpr (Real.sqrt_nonneg _)

theorem fallbackDuration_nonneg (m : TransportMode) (x y : ℚ × ℚ) :
    0 ≤ fallbackDuration m x y := by
  unfold fallbackDuration
  apply div_nonneg (haversineDist_nonneg x y)
  cases m <;> norm_num [speedKmh]

theorem haversineDist_pos (p q : ℚ × ℚ)
    (hp1 : -90 ≤ p.1) (hp2 : p.1 ≤ 90) (hq1 : -90 ≤ q.1) (hq2 : q.1 ≤ 90)
    (hp3 : -180 < p.2) (hp4 : p.2 ≤ 180) (hq3 : -180 < q.2) (hq4 : q.2 ≤ 180)
    (hne : p ≠ q) (hpole : ¬(p.1 = q.1 ∧ (p.1 = 90 ∨ p.1 = -90))) :
    0 < haversineDist p q := by
  have harg : 0 < havFn (rad q.1 - rad p.1) +
      Real.cos (rad p.1) * Real.cos (rad q.1) * havFn (rad q.2 - rad p.2) := by
    by_cases hlat : p.1 = q.1
    · have hlng : p.2 ≠ q.2 := by
        intro h2
        exact hne (Prod.ext hlat h2)
      have hstrict : -90 < p.1 ∧ p.1 < 90 := by
        constructor
        · rcases lt_or_eq_of_le hp1 with h | h
          · exact h
          · exact absurd ⟨hlat, Or.inr h.symm⟩ hpole
        · rcases lt_or_eq_of_le hp2 with h | h
          · exact h
          · exact absurd ⟨hlat, Or.inl h⟩ hpole
      have hc1 : 0 < Real.cos (rad p.1) := cos_rad_pos p.1 hstrict.1 hstrict.2
      have hc2 : 0 < Real.cos (rad q.1) := by
        rw [← hlat]
        exact hc1
      have habs : |(q.2 : ℝ) - (p.2 : ℝ)| < 360 := by
        rw [abs_lt]
        constructor
        · have c1 : (-180 : ℝ) < (q.2 : ℝ) := by exact_mod_cast hq3
          have c2 : (p.2 : ℝ) ≤ 180 := by exact_mod_cast hp4
          linarith
        · have c3 : (q.2 : ℝ) ≤ 180 := by exact_mod_cast hq4
          have c4 : (-180 : ℝ) < (p.2 : ℝ) := by exact_mod_cast hp3
          linarith
      have hpos := havFn_rad_pos q.2 p.2 (Ne.symm hlng) habs
      have h1 : 0 ≤ havFn (rad q.1 - rad p.1) := havFn_nonneg _
      nlinarith [mul_pos (mul_pos hc1 hc2) hpos]
    · have habs : |(q.1 : ℝ) - (p.1 : ℝ)| < 360 := by
        rw [abs_lt]
        constructor
        · have c1 : (-90 : ℝ) ≤ (q.1 : ℝ) := by exact_mod_cast hq1
          have c2 : (p.1 : ℝ) ≤ 90 := by exact_mod_cast hp2
          linarith
        · have c3 : (q.1 : ℝ) ≤ 90 := by exact_mod_cast hq2
          have c4 : (-90 : ℝ) ≤ (p.1 : ℝ) := by exact_mod_cast hp1
          linarith
      have hpos := havFn_rad_pos q.1 p.1 (Ne.symm hlat) habs
      have hc1 : 0 ≤ Real.cos (rad p.1) := cos_rad_nonneg p.1 hp1 hp2
      have hc2 : 0 ≤ Real.cos (rad q.1) := cos_rad_nonneg q.1 hq1 hq2
      have h2 : 0 ≤ havFn (rad q.2 - rad p.2) := havFn_nonneg _
      nlinarith [mul_nonneg (mul_nonneg hc1 hc2) h2]
  unfold haversineDist
  apply mul_pos (by norm_num : (0 : ℝ) < 2 * 6371000)
  rw [Real.arcsin_pos]
  exact Real.sqrt_pos.mpr harg

theorem idPairs_mem :
    ∀ (l : List Nat) (x y : Nat), x ∈ l → y ∈ l → x ≠ y → (x, y) ∈ idPairs l := by
  intro l
  induction l with
  | nil => intro x y hx _ _; simp at hx
  | cons i rest ih =>
    intro x y hx hy hxy
    simp only [idPairs, List.mem_append]
    rcases List.mem_cons.mp hx with rfl | hx2
    · rcases List.mem_cons.mp hy with rfl | hy2
      · exact absurd rfl hxy
      · exact Or.inl (Or.inl (List.mem_map.mpr ⟨y, hy2, rfl⟩))
    · rcases List.mem_cons.mp hy with rfl | hy2
      · exact Or.inl (Or.inr (List.mem_map.mpr ⟨x, hx2, rfl⟩))
      · exact Or.inr (ih x y hx2 hy2 hxy)

/-- C4 (amended): with a Gateway failing on every pair, every off-diagonal
matrix entry is the geodesic fallback and the diagonal is zero; the matrix
is marked degraded; the engine still returns an ok Itinerary carrying the
degraded flag; and the haversine fallback is total, zero on the diagonal,
non-negative everywhere (distances and durations), and strictly positive
for two distinct points with latitudes in [-90, 90] and longitudes in
(-180, 180], EXCEPT when both points lie at the same pole (equal latitude
of 90 or -90), where it is zero — the unrestricted positivity of the
original claim fails there (see the counterexample). -/
theorem fallback_matrix_and_engine (fb : Mat) (pois : List POI) (home : Option Nat)
    (rt : Bool) (D : Nat) (budget : ℚ) (a b : POI)
    (ha : a ∈ pois) (hb : b ∈ pois) (hab : a.pid ≠ b.pid) :
    (∀ i j, buildEntry (fun _ _ => none) fb i j = if i = j then 0 else fb i j) ∧
    matrixDegraded (fun _ _ => none) (pois.map (fun p => p.pid)) = true ∧
    (∃ it, optimize (fun _ _ => none) fb pois home rt D budget = .ok it ∧
      it.degraded = true) ∧
    (∀ x : ℚ × ℚ, haversineDist x x = 0) ∧
    (∀ x y : ℚ × ℚ, 0 ≤ haversineDist x y) ∧
    (∀ m x y, 0 ≤ fallbackDuration m x y) ∧
    (∀ x y : ℚ × ℚ, -90 ≤ x.1 → x.1 ≤ 90 → -90 ≤ y.1 → y.1 ≤ 90 →
      -180 < x.2 → x.2 ≤ 180 → -180 < y.2 → y.2 ≤ 180 → x ≠ y →
      ¬(x.1 = y.1 ∧ (x.1 = 90 ∨ x.1 = -90)) → 0 < haversineDist x y) := by
  have hdeg : matrixDegraded (fun _ _ => none) (pois.map (fun p => p.pid)) = true := by
    have hmem : (a.pid, b.pid) ∈ idPairs (pois.map (fun p => p.pid)) :=
      idPairs_mem _ _ _ (List.mem_map.mpr ⟨a, ha, rfl⟩) (List.mem_map.mpr ⟨b, hb, rfl⟩) hab
    unfold matrixDegraded
    rw [List.any_eq_true]
    exact ⟨(a.pid, b.pid), hmem, rfl⟩
  have hne : pois ≠ [] := List.ne_nil_of_mem ha
  refine ⟨fun i j => rfl, hdeg, ?_, haversineDist_self, haversineDist_nonneg,
    fallbackDuration_nonneg, ?_⟩
  · by_cases hd : D ≤ 1
    · exact ⟨⟨[planDay (fun _ _ => none) fb rt home 1 pois],
        matrixDegraded (fun _ _ => none) (pois.map (fun p => p.pid))⟩,
        by simp [optimize, hne, hd], hdeg⟩
    · exact ⟨⟨(dayClusters pois D budget).enum.filterMap
          (fun ic => if ic.2.isEmpty then none
            else some (planDay (fun _ _ => none) fb rt home (ic.1 + 1) ic.2)),
        matrixDegraded (fun _ _ => none) (pois.map (fun p => p.pid))⟩,
        by simp [optimize, hne, hd], hdeg⟩
  · intro x y h1 h2 h3 h4 h5 h6 h7 h8 h9 h10
    exact haversineDist_pos x y h1 h2 h3 h4 h5 h6 h7 h8 h9 h10

/-- Counterexample to the original C4 positivity sentence: two distinct
coordinate pairs at the north pole have haversine distance exactly zero. -/
theorem haversine_pole_counterexample :
    (((90 : ℚ), (0 : ℚ)) : ℚ × ℚ) ≠ ((90 : ℚ), (10 : ℚ)) ∧
    haversineDist ((90 : ℚ), (0 : ℚ)) ((90 : ℚ), (10 : ℚ)) = 0 := by
  constructor
  · intro h
    have h2 := congrArg Prod.snd h
    norm_num at h2
  · unfold haversineDist havFn rad
    have hc : Real.cos ((90 : ℝ) * Real.pi / 180) = 0 := by
      rw [show (90 : ℝ) * Real.pi / 180 = Real.pi / 2 from by ring]
      exact Real.cos_pi_div_two
    simp [hc, sub_self, zero_div, Real.sin_zero, Real.sqrt_zero, Real.arcsin_zero]

/-- Witness for C4 (amended): a concrete two-POI request against an
all-failing gateway yields a degraded itinerary. -/
theorem fallback_matrix_and_engine_witness :
    ((⟨0, 0, 0, 60, "museum"⟩ : POI) ∈
        ([⟨0, 0, 0, 60, "museum"⟩, ⟨1, 1, 1, 60, "cafe"⟩] : List POI)) ∧
    ((⟨0, 0, 0, 60, "museum"⟩ : POI).pid ≠ (⟨1, 1, 1, 60, "cafe"⟩ : POI).pid) ∧
    matrixDegraded (fun _ _ => none)
      (([⟨0, 0, 0, 60, "museum"⟩, ⟨1, 1, 1, 60, "cafe"⟩] : List POI).map
        (fun p => p.pid)) = true ∧
    (∃ it, optimize (fun _ _ => none) (fun _ _ => 1)
        [(⟨0, 0, 0, 60, "museum"⟩ : POI), ⟨1, 1, 1, 60, "cafe"⟩] none false 1 0 = .ok it ∧
      it.degraded = true) :=
  have T := fallback_matrix_and_engine (fun _ _ => 1)
    [(⟨0, 0, 0, 60, "museum"⟩ : POI), ⟨1, 1, 1, 60, "cafe"⟩] none false 1 0
    ⟨0, 0, 0, 60, "museum"⟩ ⟨1, 1, 1, 60, "cafe"⟩
    (by simp) (by simp) (by simp)
  ⟨by simp, by simp, T.2.1, T.2.2.1⟩
